import Mathlib

/-!
# Verification of the libcryptoplus `cipher_context` adapter

A shallow embedding of `src/include/cryptoplus/cipher/cipher_context.hpp`
(the cipher-context wrapper of libcryptoplus) together with a behavioural
model of the initialize/update/finalize lifecycle.  The header declares
`initialize`, `update` and `finalize` but their bodies are not part of the
source tree at hand; those operations are modelled from the specification
(state machine of §4.1, capability interface of §6, error taxonomy of §7),
while every member whose body is present in the header (constructor,
destructor, `set_padding`, `key_length`, `set_key_length`, `ctrl_get`,
`ctrl_set`, `raw`, `algorithm`) is embedded directly from its source.

Byte buffers are `List Nat`, native handles are `Nat`, fallible adapter
operations return `Except CipherError _`.
-/

namespace Cryptoplus
/-- The error taxonomy of spec §7: `cryptoError code` carries the native
error code of a failed native call, `paddingError` signals a decrypt-side
padding/authentication mismatch, `contractViolation` a call that violates
the lifecycle state machine (the class also containing `InvalidOperation`). -/

inductive CipherError where
  | cryptoError (code : Nat)
  | paddingError
  | contractViolation
deriving DecidableEq, Repr

/-- The cipher direction enumeration, from `cipher_context::cipher_direction`
(source lines 75–80): `unchanged` keeps the direction of a previous
`initialize`, `decrypt` and `encrypt` select a direction. -/

inductive cipher_direction where
  | unchanged
  | decrypt
  | encrypt
deriving DecidableEq, Repr

/-- The immutable cipher-algorithm descriptor of spec §3: block size, key
length, IV length, and whether the key length is variable.  (The class
`cipher_algorithm` lives in a header not present in the source tree; the
descriptor is taken from the spec's data model.) -/

structure cipher_algorithm where
  block_size : Nat
  key_length : Nat
  iv_length : Nat
  variable_key : Bool
deriving DecidableEq, Repr

instance {ε α : Type _} [DecidableEq ε] [DecidableEq α] :
    DecidableEq (Except ε α) := fun x y =>
  match x, y with
  | .ok a, .ok b =>
    if h : a = b then isTrue (by rw [h])
    else isFalse (fun hc => h (by injection hc))
  | .error e, .error f =>
    if h : e = f then isTrue (by rw [h])
    else isFalse (fun hc => h (by injection hc))
  | .ok _, .error _ => isFalse (fun hc => Except.noConfusion hc)
  | .error _, .ok _ => isFalse (fun hc => Except.noConfusion hc)

/-! ## Block chunking

`chunks bs xs` splits `xs` into consecutive blocks of `bs` elements (the
last block may be shorter).  This is the block decomposition that the
streaming cipher model feeds to the per-block primitive. -/

/-- Fuel-indexed splitter: each step peels `bs` elements off and spends one
unit of fuel, so the recursion is structural and computes by kernel
reduction. -/

def chunksAux (bs : Nat) : Nat → List α → List (List α)
  | _, [] => []
  | 0, _ :: _ => []
  | fuel + 1, x :: rest =>
    (x :: rest).take bs :: chunksAux bs fuel (rest.drop (bs - 1))

/-- Split a list into consecutive chunks of size `bs`; the final chunk may
be shorter.  Returns `[]` when `bs = 0` to stay total. -/

def chunks (bs : Nat) (xs : List α) : List (List α) :=
  if bs = 0 then [] else chunksAux bs xs.length xs

/-! ## PKCS#7 padding

Modelled from the spec (glossary: "PKCS padding: a standard scheme for
padding plaintext to a multiple of the cipher's block size, removed and
validated during decryption"). -/

/-- Modelled from the spec: PKCS block padding as applied by the native
finalize on the encrypt side — append `k` bytes of value `k`, where
`k = bs - len % bs` (so `1 ≤ k ≤ bs` and the result is a whole number of
blocks). -/

def pkcs7_pad (bs : Nat) (data : List Nat) : List Nat :=
  data ++ List.replicate (bs - data.length % bs) (bs - data.length % bs)

/-- Modelled from the spec: PKCS padding validation and removal as
performed by the native finalize on the decrypt side — the last byte `k`
must satisfy `1 ≤ k ≤ bs`, the last `k` bytes must all equal `k`, and the
padding is stripped; `none` signals a padding/authentication mismatch. -/

def pkcs7_unpad (bs : Nat) (blk : List Nat) : Option (List Nat) :=
  if 1 ≤ blk.getLastD 0 ∧ blk.getLastD 0 ≤ bs ∧ blk.getLastD 0 ≤ blk.length ∧
      (blk.drop (blk.length - blk.getLastD 0)).all (fun b => b == blk.getLastD 0) then
    some (blk.take (blk.length - blk.getLastD 0))
  else
    none

/-! ## The behavioural lifecycle model

The bodies of `cipher_context::initialize`, `cipher_context::update` and
`cipher_context::finalize` are declared in the header (source lines 107,
157, 167) but implemented in a translation unit that is not part of the
source tree at hand.  The operations below are therefore modelled from the
spec: the state machine `Empty → Initialized → Streaming → Finalized` of
§4.1, the native capability interface of §6, and the error taxonomy of §7.
The model is parametric in the per-block primitives `E` (encrypt one block)
and `D` (decrypt one block) supplied by the native library, which the spec
treats as an external collaborator. -/

/-- The lifecycle states of spec §4.1. -/

inductive life_state where
  | empty
  | initialized
  | streaming
  | finalized
deriving DecidableEq, Repr

/-- The observable state of a cipher context between adapter calls:
lifecycle position, resolved direction (`true` = encrypt; meaningful once
initialized), PKCS-padding flag, and the bytes buffered by the native
streaming layer that have not yet been emitted. -/

structure ctx_state where
  status : life_state
  encryptDir : Bool
  padding : Bool
  buf : List Nat
deriving DecidableEq, Repr

/-- A freshly constructed context: `Empty`, with PKCS padding enabled by
default (header line 105: "By default, PKCS padding is enabled"). -/

def ctx_empty : ctx_state :=
  { status := .empty, encryptDir := true, padding := true, buf := [] }

/-- Modelled from the spec: `cipher_context::initialize` (declared at
header line 107).  Resolves the direction (`unchanged` reuses the previous
direction and is a precondition violation on a never-initialized context),
fails with `cryptoError` when the native init call rejects the key or IV
length (`key` must be exactly `keyLen` bytes — the configured key length,
`algorithm.key_length()` unless changed by `set_key_length`; `iv` must be
exactly `algorithm.iv_length()` bytes when the algorithm requires one),
and resets any partially-accumulated streaming state. -/

def ctx_init (alg : cipher_algorithm) (direction : cipher_direction)
    (keyLen : Nat) (key iv : List Nat) (ctx : ctx_state) :
    Except CipherError ctx_state :=
  match direction, ctx.status with
  | .unchanged, .empty => .error .contractViolation
  | _, _ =>
    let enc : Bool := match direction with
      | .unchanged => ctx.encryptDir
      | .decrypt => false
      | .encrypt => true
    if key.length ≠ keyLen then .error (.cryptoError 0)
    else if alg.iv_length ≠ 0 ∧ iv.length ≠ alg.iv_length then
      .error (.cryptoError 0)
    else
      .ok { status := .initialized, encryptDir := enc,
            padding := ctx.padding, buf := [] }

/-- Modelled from the spec: `cipher_context::set_padding` behaviour at the
context level (header lines 197–201 toggle the native PKCS-padding flag and
always succeed). -/

def ctx_set_padding (ctx : ctx_state) (enabled : Bool) : ctx_state :=
  { ctx with padding := enabled }

/-- How many trailing bytes the native streaming layer withholds from
`update` output: everything short of a full block — and, when decrypting
with padding enabled, a full final block as well, since it may be all
padding and can only be resolved by `finalize`. -/

def ctx_keep (enc padding : Bool) (bs n : Nat) : Nat :=
  if enc || !padding then n % bs
  else if n % bs = 0 ∧ n ≠ 0 then bs else n % bs

/-- Modelled from the spec: `cipher_context::update` (declared at header
line 157).  A contract violation from `Empty` or `Finalized`; otherwise the
input is appended to the buffered bytes, all resolvable whole blocks are
passed through the per-block primitive and emitted, and the remainder stays
buffered.  Returns the successor state and the bytes written. -/

def ctx_update (E D : List Nat → List Nat) (bs : Nat) (ctx : ctx_state)
    (input : List Nat) : Except CipherError (ctx_state × List Nat) :=
  if ctx.status = .empty ∨ ctx.status = .finalized then
    .error .contractViolation
  else
    let buf := ctx.buf ++ input
    let keep := ctx_keep ctx.encryptDir ctx.padding bs buf.length
    let out := ((chunks bs (buf.take (buf.length - keep))).map
      (if ctx.encryptDir then E else D)).flatten
    .ok ({ ctx with status := .streaming, buf := buf.drop (buf.length - keep) },
      out)

/-- Modelled from the spec: `cipher_context::finalize` (declared at header
line 167).  A contract violation from `Empty` or `Finalized`.  With padding
disabled, any buffered remainder means the input was not a whole number of
blocks: the native call fails and the adapter raises `cryptoError`.  With
padding enabled, encryption pads the remainder to a full block and emits
it; decryption requires the withheld final block, strips its padding, and
— when the native call succeeds while reporting zero bytes written because
the padding check failed — raises `paddingError`. -/

def ctx_finalize (E D : List Nat → List Nat) (bs : Nat) (ctx : ctx_state) :
    Except CipherError (ctx_state × List Nat) :=
  if ctx.status = .empty ∨ ctx.status = .finalized then
    .error .contractViolation
  else if !ctx.padding then
    if ctx.buf = [] then .ok ({ ctx with status := .finalized }, [])
    else .error (.cryptoError 0)
  else if ctx.encryptDir then
    .ok ({ ctx with status := .finalized, buf := [] },
      E (pkcs7_pad bs ctx.buf))
  else if ctx.buf.length ≠ bs then
    .error (.cryptoError 0)
  else
    match pkcs7_unpad bs (D ctx.buf) with
    | some plain => .ok ({ ctx with status := .finalized, buf := [] }, plain)
    | none => .error .paddingError

/-- One-shot encryption or decryption through the adapter lifecycle of
§4.1: `initialize`, a single `update` with the whole input, `finalize`;
the produced bytes are the concatenation of the `update` and `finalize`
output. -/

def ctx_oneshot (E D : List Nat → List Nat) (alg : cipher_algorithm)
    (direction : cipher_direction) (key iv data : List Nat) :
    Except CipherError (List Nat) :=
  match ctx_init alg direction alg.key_length key iv ctx_empty with
  | .error e => .error e
  | .ok s1 =>
    match ctx_update E D alg.block_size s1 data with
    | .error e => .error e
    | .ok (s2, o1) =>
      match ctx_finalize E D alg.block_size s2 with
      | .error e => .error e
      | .ok (_, o2) => .ok (o1 ++ o2)

/-! ## Structural embedding of the inline members

Every member of `cipher_context` whose body appears in the header is
embedded here together with the exact sequence of native calls it performs
(each call paired with the handle it targets).  The native return values
are passed in as parameters, so each member is modelled for every possible
behaviour of the native library. -/

/-- The native API entry points named by the header. -/

inductive native_fn where
  | ctx_init_fn
  | ctx_cleanup_fn
  | set_padding_fn
  | key_length_fn
  | set_key_length_fn
  | ctrl_fn
  | get_cipher_fn
  | cipher_init_fn
  | cipher_update_fn
  | cipher_final_fn
deriving DecidableEq, Repr

/-- A native call: which entry point, on which handle. -/

abbrev native_call := native_fn × Nat

/-- The wrapper object.  Source lines 182–185: the private section of
`cipher_context` declares exactly one data member, `EVP_CIPHER_CTX m_ctx`;
a handle is its identity. -/

structure cipher_context where
  m_ctx : Nat
deriving DecidableEq, Repr

/-- Modelled from the spec: `error::throw_error_if_not` from
`error/cryptographic_exception.hpp` (included at header line 48 but not
part of the source tree).  Per spec §7 a failed native call surfaces as
`CryptoError` carrying the native error code; the function receives only
the native return value, so the error kind cannot depend on anything
else. -/

def throw_error_if_not (nativeOk : Bool) (code : Nat) :
    Except CipherError Unit :=
  if nativeOk then .ok () else .error (.cryptoError code)

/-- `cipher_context::cipher_context()` (source lines 187–190): the body is
the single call `EVP_CIPHER_CTX_init(&m_ctx)`. -/

def cipher_context.construct (h : Nat) : cipher_context × List native_call :=
  (⟨h⟩, [(.ctx_init_fn, h)])

/-- `cipher_context::~cipher_context()` (source lines 192–195): the body is
the single call `EVP_CIPHER_CTX_cleanup(&m_ctx)`. -/

def cipher_context.destruct (c : cipher_context) : List native_call :=
  [(.ctx_cleanup_fn, c.m_ctx)]

/-- `cipher_context::set_padding` (source lines 197–201): one call to
`EVP_CIPHER_CTX_set_padding(&m_ctx, enabled)`; its return value is ignored
("The call always returns 1 so testing its return value is useless"), so
the member returns normally whatever the native call returned. -/

def cipher_context.set_padding (c : cipher_context) (_enabled : Bool)
    (_nativeRet : Int) : List native_call × Except CipherError Unit :=
  ([(.set_padding_fn, c.m_ctx)], .ok ())

/-- `cipher_context::key_length` (source lines 203–206): one call to
`EVP_CIPHER_CTX_key_length(&m_ctx)`, whose value is returned unchecked. -/

def cipher_context.key_length (c : cipher_context) (nativeRet : Nat) :
    List native_call × Except CipherError Nat :=
  ([(.key_length_fn, c.m_ctx)], .ok nativeRet)

/-- `cipher_context::set_key_length` (source lines 208–211): one call to
`EVP_CIPHER_CTX_set_key_length(&m_ctx, len)` whose return value is fed to
`throw_error_if_not`. -/

def cipher_context.set_key_length (c : cipher_context) (_len : Nat)
    (nativeOk : Bool) (code : Nat) : List native_call × Except CipherError Unit :=
  ([(.set_key_length_fn, c.m_ctx)], throw_error_if_not nativeOk code)

/-- `cipher_context::ctrl_get` (source lines 213–217): one call to
`EVP_CIPHER_CTX_ctrl(&m_ctx, type, 0, &value)` fed to
`throw_error_if_not`. -/

def cipher_context.ctrl_get (c : cipher_context) (_type : Int)
    (nativeOk : Bool) (code : Nat) : List native_call × Except CipherError Unit :=
  ([(.ctrl_fn, c.m_ctx)], throw_error_if_not nativeOk code)

/-- `cipher_context::ctrl_set` (source lines 219–222): one call to
`EVP_CIPHER_CTX_ctrl(&m_ctx, type, value, NULL)` fed to
`throw_error_if_not`. -/

def cipher_context.ctrl_set (c : cipher_context) (_type _value : Int)
    (nativeOk : Bool) (code : Nat) : List native_call × Except CipherError Unit :=
  ([(.ctrl_fn, c.m_ctx)], throw_error_if_not nativeOk code)

/-- `cipher_context::raw` (source lines 224–227): the body is
`return m_ctx;` — the member hands out the handle itself, performing no
native call and no check. -/

def cipher_context.raw (c : cipher_context) : List native_call × Nat :=
  ([], c.m_ctx)

/-- `cipher_context::algorithm` (source lines 229–232): one call to
`EVP_CIPHER_CTX_cipher(&m_ctx)`, wrapped unchecked into a
`cipher_algorithm`. -/

def cipher_context.algorithm (c : cipher_context) (nativeRet : Nat) :
    List native_call × Nat :=
  ([(.get_cipher_fn, c.m_ctx)], nativeRet)

/-- The member operations callable between construction and destruction,
each carrying the native library's response to its one native call.  The
three lifecycle operations whose bodies are outside the source tree appear
with the native entry point they are documented to invoke and a flag for
whether that call failed. -/

inductive wrapper_op where
  | op_set_padding (enabled : Bool) (nativeRet : Int)
  | op_key_length (nativeRet : Nat)
  | op_set_key_length (len : Nat) (nativeOk : Bool) (code : Nat)
  | op_ctrl_get (type : Int) (nativeOk : Bool) (code : Nat)
  | op_ctrl_set (type value : Int) (nativeOk : Bool) (code : Nat)
  | op_raw
  | op_algorithm (nativeRet : Nat)
  | op_init (fails : Bool)
  | op_update (fails : Bool)
  | op_final (fails : Bool)
deriving DecidableEq, Repr

/-- The native calls one member call performs, and whether it raised. -/

def run_op (c : cipher_context) : wrapper_op → List native_call × Bool
  | .op_set_padding e r => ((c.set_padding e r).1, false)
  | .op_key_length r => ((c.key_length r).1, false)
  | .op_set_key_length l ok code =>
    ((c.set_key_length l ok code).1, !ok)
  | .op_ctrl_get t ok code => ((c.ctrl_get t ok code).1, !ok)
  | .op_ctrl_set t v ok code => ((c.ctrl_set t v ok code).1, !ok)
  | .op_raw => (c.raw.1, false)
  | .op_algorithm r => ((c.algorithm r).1, false)
  | .op_init f => ([(.cipher_init_fn, c.m_ctx)], f)
  | .op_update f => ([(.cipher_update_fn, c.m_ctx)], f)
  | .op_final f => ([(.cipher_final_fn, c.m_ctx)], f)

/-- The native trace of a sequence of member calls; an error propagates out
of the member that raised it, abandoning the rest of the sequence. -/

def run_ops (c : cipher_context) : List wrapper_op → List native_call
  | [] => []
  | op :: rest =>
    let (t, failed) := run_op c op
    t ++ (if failed then [] else run_ops c rest)

/-- A full object lifetime: construction, any sequence of member calls
(possibly cut short by an error), then — C++ scope exit runs the destructor
unconditionally, also during exception unwinding — destruction. -/

def run_scope (h : Nat) (ops : List wrapper_op) : List native_call :=
  (cipher_context.construct h).2 ++
    run_ops (cipher_context.construct h).1 ops ++
    (cipher_context.construct h).1.destruct

/-! ## Exclusive ownership

`cipher_context` derives from `boost::noncopyable` (source line 68), whose
whole point is that the copy constructor and copy assignment are
inaccessible.  The embedding makes that structural: the events a program
can perform on wrapper objects are exactly construction (which, because
`m_ctx` is held by value, allocates a handle at a fresh address), member
use, and destruction — there is no event that makes a second wrapper for an
existing handle. -/

/-- The wrapper-object events available to a client program. -/

inductive owner_event where
  | ev_create (h : Nat)
  | ev_use (h : Nat)
  | ev_destroy (h : Nat)
deriving DecidableEq, Repr

/-- The handles owned by live wrappers after one event. -/

def owners_step (os : List Nat) : owner_event → List Nat
  | .ev_create h => h :: os
  | .ev_use _ => os
  | .ev_destroy h => os.erase h

/-- The handles owned by live wrappers after a program trace. -/

def owners (es : List owner_event) : List Nat :=
  es.foldl owners_step []

/-- A trace is representable as a C++ program when every construction is at
a fresh address (distinct objects have distinct `m_ctx` addresses) and
every use or destruction is through a live wrapper. -/

def wf_from (os : List Nat) : List owner_event → Bool
  | [] => true
  | .ev_create h :: rest => !os.contains h && wf_from (h :: os) rest
  | .ev_use h :: rest => os.contains h && wf_from os rest
  | .ev_destroy h :: rest => os.contains h && wf_from (os.erase h) rest

/-- Well-formedness of a whole trace. -/

def wf_trace (es : List owner_event) : Bool :=
  wf_from [] es

/-! ## Support lemmas -/

/-- Modelled from the spec: the native get/set-key-length capability of §6.
A fixed-key algorithm accepts only its fixed length; a variable-key
algorithm accepts exactly the lengths its native implementation supports,
given by the predicate `supported`. -/

def native_set_key_length (supported : Nat → Bool) (alg : cipher_algorithm)
    (len : Nat) : Bool :=
  if alg.variable_key then supported len else len == alg.key_length

/-- `cipher_context::set_key_length` composed with the native capability:
the adapter feeds the native verdict to `throw_error_if_not`. -/

def set_key_length_adapter (c : cipher_context) (supported : Nat → Bool)
    (alg : cipher_algorithm) (len code : Nat) :
    List native_call × Except CipherError Unit :=
  c.set_key_length len (native_set_key_length supported alg len) code

/-! ## Theorems -/

theorem chunksAux_eq_of_le (bs : Nat) (f : Nat) :
    ∀ (xs : List α), xs.length ≤ f →
      chunksAux bs f xs = chunksAux bs xs.length xs := by
  induction f using Nat.strong_induction_on with
  | _ f ih =>
    intro xs hxs
    cases f with
    | zero =>
      have : xs = [] := List.eq_nil_of_length_eq_zero (by omega)
      subst this
      rfl
    | succ f' =>
      cases xs with
      | nil => rfl
      | cons x rest =>
        simp only [List.length_cons] at hxs ⊢
        show (x :: rest).take bs :: chunksAux bs f' (rest.drop (bs - 1)) =
          chunksAux bs (rest.length + 1) (x :: rest)
        have hd : (rest.drop (bs - 1)).length ≤ f' := by
          simp only [List.length_drop]
          omega
        have hd2 : (rest.drop (bs - 1)).length ≤ rest.length := by
          simp only [List.length_drop]
          omega
        rw [ih f' (by omega) (rest.drop (bs - 1)) hd]
        show _ = (x :: rest).take bs :: chunksAux bs rest.length (rest.drop (bs - 1))
        rw [ih rest.length (by omega) (rest.drop (bs - 1)) hd2]

theorem chunks_nil (bs : Nat) : chunks bs ([] : List α) = [] := by
  unfold chunks
  cases bs <;> simp [chunksAux]

theorem chunks_eq (bs : Nat) (xs : List α) (hbs : bs ≠ 0) (hxs : xs ≠ []) :
    chunks bs xs = xs.take bs :: chunks bs (xs.drop bs) := by
  cases xs with
  | nil => exact absurd rfl hxs
  | cons x rest =>
    unfold chunks
    rw [if_neg hbs, if_neg hbs]
    show chunksAux bs (rest.length + 1) (x :: rest) = _
    show (x :: rest).take bs :: chunksAux bs rest.length (rest.drop (bs - 1)) = _
    obtain ⟨k, hk⟩ : ∃ k, bs = k + 1 := ⟨bs - 1, by omega⟩
    have hdrop : (x :: rest).drop bs = rest.drop (bs - 1) := by
      subst hk
      simp [List.drop_succ_cons]
    rw [hdrop, chunksAux_eq_of_le bs rest.length (rest.drop (bs - 1))
      (by simp only [List.length_drop]; omega)]

/-- Flattening the chunks recovers the original list. -/
theorem flatten_chunks (bs : Nat) (hbs : 0 < bs) (xs : List α) :
    (chunks bs xs).flatten = xs := by
  have H : ∀ n (ys : List α), ys.length ≤ n → (chunks bs ys).flatten = ys := by
    intro n
    induction n with
    | zero =>
      intro ys hy
      have : ys = [] := List.eq_nil_of_length_eq_zero (by omega)
      subst this
      simp [chunks_nil]
    | succ k ih =>
      intro ys hy
      by_cases hne : ys = []
      · subst hne; simp [chunks_nil]
      · rw [chunks_eq bs ys (by omega) hne]
        have hpos : 0 < ys.length := List.length_pos.mpr hne
        have : (ys.drop bs).length ≤ k := by
          simp only [List.length_drop]; omega
        simp only [List.flatten_cons, ih (ys.drop bs) this]
        exact List.take_append_drop bs ys
  exact H xs.length xs le_rfl

/-- A list whose length is exactly the block size is a single chunk. -/
theorem chunks_of_length_eq (bs : Nat) (hbs : 0 < bs) (xs : List α)
    (hlen : xs.length = bs) : chunks bs xs = [xs] := by
  have hxs : xs ≠ [] := by
    intro h; subst h; simp at hlen; omega
  rw [chunks_eq bs xs (by omega) hxs]
  have h1 : xs.take bs = xs := List.take_of_length_le (by omega)
  have h2 : xs.drop bs = [] := List.drop_eq_nil_of_le (by omega)
  rw [h1, h2, chunks_nil]

/-- Chunking distributes over append when the first part is a whole number
of blocks. -/
theorem chunks_append (bs : Nat) (hbs : 0 < bs) (m : Nat) :
    ∀ (a b : List α), a.length = m * bs →
      chunks bs (a ++ b) = chunks bs a ++ chunks bs b := by
  induction m with
  | zero =>
    intro a b ha
    have : a = [] := List.eq_nil_of_length_eq_zero (by omega)
    subst this
    simp [chunks_nil]
  | succ k ih =>
    intro a b ha
    have hbsne : bs ≠ 0 := by omega
    have hane : a ≠ [] := by
      intro h; subst h; simp at ha; omega
    by_cases hb : b = []
    · subst hb; simp [chunks_nil]
    have habne : a ++ b ≠ [] := by simp [hane]
    rw [chunks_eq bs (a ++ b) hbsne habne, chunks_eq bs a hbsne hane]
    have hble : bs ≤ a.length := by
      rw [ha]
      calc bs = 1 * bs := (Nat.one_mul bs).symm
        _ ≤ (k + 1) * bs := Nat.mul_le_mul_right bs (by omega)
    rw [List.take_append_of_le_length hble, List.drop_append_of_le_length hble]
    have hdlen : (a.drop bs).length = k * bs := by
      simp only [List.length_drop, ha]
      have : (k + 1) * bs = k * bs + bs := by ring
      omega
    rw [ih (a.drop bs) b hdlen]
    simp

/-- Every chunk of a whole number of blocks has exactly the block size. -/
theorem length_of_mem_chunks (bs : Nat) (hbs : 0 < bs) (m : Nat) :
    ∀ (xs : List α), xs.length = m * bs →
      ∀ c ∈ chunks bs xs, c.length = bs := by
  induction m with
  | zero =>
    intro xs hxs c hc
    have : xs = [] := List.eq_nil_of_length_eq_zero (by omega)
    subst this
    simp [chunks_nil] at hc
  | succ k ih =>
    intro xs hxs c hc
    have hbsne : bs ≠ 0 := by omega
    have hne : xs ≠ [] := by
      intro h; subst h; simp at hxs; omega
    rw [chunks_eq bs xs hbsne hne] at hc
    have hble : bs ≤ xs.length := by
      rw [hxs]
      calc bs = 1 * bs := (Nat.one_mul bs).symm
        _ ≤ (k + 1) * bs := Nat.mul_le_mul_right bs (by omega)
    rcases List.mem_cons.mp hc with h | h
    · subst h; simp [List.length_take]; omega
    · refine ih (xs.drop bs) ?_ c h
      simp only [List.length_drop, hxs]
      have : (k + 1) * bs = k * bs + bs := by ring
      omega

/-- Chunking the concatenation of full blocks recovers the blocks. -/
theorem chunks_flatten_of_uniform (bs : Nat) (hbs : 0 < bs) (L : List (List α))
    (hL : ∀ c ∈ L, c.length = bs) : chunks bs L.flatten = L := by
  induction L with
  | nil => simp [chunks_nil]
  | cons c t ih =>
    have hc : c.length = bs := hL c (List.mem_cons_self c t)
    rw [List.flatten_cons, chunks_append bs hbs 1 c t.flatten (by omega),
      chunks_of_length_eq bs hbs c hc,
      ih (fun x hx => hL x (List.mem_cons_of_mem c hx))]
    simp

/-- Length of a concatenation of full blocks. -/
theorem length_flatten_of_uniform (bs : Nat) (L : List (List α))
    (hL : ∀ c ∈ L, c.length = bs) : L.flatten.length = L.length * bs := by
  induction L with
  | nil => simp
  | cons c t ih =>
    simp only [List.flatten_cons, List.length_append, List.length_cons]
    rw [hL c (List.mem_cons_self c t),
      ih (fun x hx => hL x (List.mem_cons_of_mem c hx))]
    ring

/-- Taking a whole number of blocks from a concatenation of full blocks
takes whole blocks. -/
theorem take_flatten_of_uniform (bs : Nat) (j : Nat) :
    ∀ (L : List (List α)), (∀ c ∈ L, c.length = bs) →
      L.flatten.take (j * bs) = (L.take j).flatten := by
  induction j with
  | zero => intro L _; simp
  | succ k ih =>
    intro L hL
    cases L with
    | nil => simp
    | cons c t =>
      have hc : c.length = bs := hL c (List.mem_cons_self c t)
      simp only [List.flatten_cons, List.take_succ_cons]
      rw [List.take_append_eq_append_take]
      have h1 : c.take ((k + 1) * bs) = c := by
        apply List.take_of_length_le; rw [hc]
        calc bs = 1 * bs := (Nat.one_mul bs).symm
          _ ≤ (k + 1) * bs := Nat.mul_le_mul_right bs (by omega)
      have h2 : (k + 1) * bs - c.length = k * bs := by
        rw [hc]
        have : (k + 1) * bs = k * bs + bs := by ring
        omega
      rw [h1, h2, ih t (fun x hx => hL x (List.mem_cons_of_mem c hx))]

/-- Dropping a whole number of blocks from a concatenation of full blocks
drops whole blocks. -/
theorem drop_flatten_of_uniform (bs : Nat) (j : Nat) :
    ∀ (L : List (List α)), (∀ c ∈ L, c.length = bs) →
      L.flatten.drop (j * bs) = (L.drop j).flatten := by
  induction j with
  | zero => intro L _; simp
  | succ k ih =>
    intro L hL
    cases L with
    | nil => simp
    | cons c t =>
      have hc : c.length = bs := hL c (List.mem_cons_self c t)
      simp only [List.flatten_cons, List.drop_succ_cons]
      rw [List.drop_append_eq_append_drop]
      have h1 : c.drop ((k + 1) * bs) = [] := by
        apply List.drop_eq_nil_of_le; rw [hc]
        calc bs = 1 * bs := (Nat.one_mul bs).symm
          _ ≤ (k + 1) * bs := Nat.mul_le_mul_right bs (by omega)
      have h2 : (k + 1) * bs - c.length = k * bs := by
        rw [hc]
        have : (k + 1) * bs = k * bs + bs := by ring
        omega
      rw [h1, h2, ih t (fun x hx => hL x (List.mem_cons_of_mem c hx))]
      simp

theorem getLast?_replicate_succ (n : Nat) (a : α) :
    (List.replicate (n + 1) a).getLast? = some a := by
  induction n with
  | zero => rfl
  | succ j ih =>
    rw [show List.replicate (j + 2) a = a :: a :: List.replicate j a by
      simp [List.replicate_succ]]
    rw [List.getLast?_cons_cons]
    rw [show a :: List.replicate j a = List.replicate (j + 1) a by
      simp [List.replicate_succ]]
    exact ih

theorem length_pkcs7_pad (bs : Nat) (hbs : 0 < bs) (data : List Nat) :
    (pkcs7_pad bs data).length = (data.length / bs + 1) * bs := by
  simp only [pkcs7_pad, List.length_append, List.length_replicate]
  have h1 : data.length % bs < bs := Nat.mod_lt _ hbs
  have h2 : bs * (data.length / bs) + data.length % bs = data.length :=
    Nat.div_add_mod data.length bs
  have h3 : (data.length / bs + 1) * bs = bs * (data.length / bs) + bs := by
    ring
  omega

/-- Unpadding a padded buffer recovers it. -/
theorem pkcs7_unpad_pad (bs : Nat) (hbs : 0 < bs) (data : List Nat)
    (hlen : data.length < bs) :
    pkcs7_unpad bs (pkcs7_pad bs data) = some data := by
  have hm : data.length % bs = data.length := Nat.mod_eq_of_lt hlen
  have hk : 0 < bs - data.length % bs := by omega
  have hrep : List.replicate (bs - data.length % bs) (bs - data.length % bs) ≠
      ([] : List Nat) := by
    intro h
    have := congrArg List.length h
    simp only [List.length_replicate, List.length_nil] at this
    omega
  have hgl : (pkcs7_pad bs data).getLastD 0 = bs - data.length % bs := by
    unfold pkcs7_pad
    obtain ⟨m, hmk⟩ : ∃ m, bs - data.length % bs = m + 1 :=
      ⟨bs - data.length % bs - 1, by omega⟩
    rw [List.getLastD_eq_getLast?, List.getLast?_append_of_ne_nil data hrep,
      hmk, getLast?_replicate_succ]
    rfl
  have hplen : (pkcs7_pad bs data).length = bs := by
    simp only [pkcs7_pad, List.length_append, List.length_replicate]
    omega
  have hsub : (pkcs7_pad bs data).length - (bs - data.length % bs) =
      data.length := by
    rw [hplen]; omega
  have hdrop : (pkcs7_pad bs data).drop data.length =
      List.replicate (bs - data.length % bs) (bs - data.length % bs) := by
    unfold pkcs7_pad
    rw [List.drop_append_eq_append_drop, List.drop_eq_nil_of_le (le_refl _)]
    simp
  have htake : (pkcs7_pad bs data).take data.length = data := by
    unfold pkcs7_pad
    rw [List.take_append_eq_append_take, List.take_of_length_le (le_refl _)]
    simp
  have c4 : ((pkcs7_pad bs data).drop
      ((pkcs7_pad bs data).length - (pkcs7_pad bs data).getLastD 0)).all
      (fun b => b == (pkcs7_pad bs data).getLastD 0) = true := by
    rw [hgl, hsub, hdrop]
    simp [List.all_eq_true]
  unfold pkcs7_unpad
  rw [if_pos ⟨by rw [hgl]; omega, by rw [hgl]; omega, by rw [hgl, hplen]; omega, c4⟩,
    hgl, hsub, htake]

theorem owners_nodup_from (es : List owner_event) :
    ∀ (os : List Nat), os.Nodup → wf_from os es = true →
      (es.foldl owners_step os).Nodup := by
  induction es with
  | nil => intro os hn _; simpa using hn
  | cons e rest ih =>
    intro os hn hwf
    cases e with
    | ev_create h =>
      simp only [wf_from, Bool.and_eq_true, Bool.not_eq_true'] at hwf
      have hnotmem : h ∉ os := by simpa using hwf.1
      exact ih (h :: os) (List.nodup_cons.mpr ⟨hnotmem, hn⟩) hwf.2
    | ev_use h =>
      simp only [wf_from, Bool.and_eq_true] at hwf
      exact ih os hn hwf.2
    | ev_destroy h =>
      simp only [wf_from, Bool.and_eq_true] at hwf
      exact ih (os.erase h) (hn.erase h) hwf.2

/-- No member call ever touches the handle-lifecycle entry points: context
setup and teardown appear only in the constructor and destructor. -/
theorem run_ops_no_lifecycle (c : cipher_context) (ops : List wrapper_op) :
    ∀ p ∈ run_ops c ops, p.1 ≠ native_fn.ctx_init_fn ∧
      p.1 ≠ native_fn.ctx_cleanup_fn := by
  induction ops with
  | nil =>
    intro p hp
    simp [run_ops] at hp
  | cons op rest ih =>
    intro p hp
    simp only [run_ops] at hp
    rcases List.mem_append.mp hp with h1 | h2
    · cases op <;>
        simp only [run_op, cipher_context.set_padding, cipher_context.key_length,
          cipher_context.set_key_length, cipher_context.ctrl_get,
          cipher_context.ctrl_set, cipher_context.raw, cipher_context.algorithm,
          List.mem_singleton, List.not_mem_nil] at h1 <;>
        first
          | exact absurd h1 (by simp)
          | (subst h1; exact ⟨by simp, by simp⟩)
    · by_cases hf : (run_op c op).2
      · rw [if_pos hf] at h2
        simp at h2
      · rw [if_neg hf] at h2
        exact ih p h2

/-- Counting a native call in a member-call trace: the lifecycle entry
points never occur. -/
theorem run_ops_count_lifecycle (c : cipher_context) (ops : List wrapper_op)
    (f : native_fn) (hf : f = .ctx_init_fn ∨ f = .ctx_cleanup_fn) (h : Nat) :
    (run_ops c ops).count ((f, h) : native_call) = 0 := by
  rw [List.count_eq_zero]
  intro hmem
  have := run_ops_no_lifecycle c ops (f, h) hmem
  rcases hf with hf | hf <;> simp [hf] at this

/-- The number of chunks of a whole number of blocks. -/
theorem chunks_length_of_mul (bs : Nat) (hbs : 0 < bs) (m : Nat)
    (xs : List α) (hxs : xs.length = m * bs) : (chunks bs xs).length = m := by
  have huni := length_of_mem_chunks bs hbs m xs hxs
  have hflat := flatten_chunks bs hbs xs
  have hlen := length_flatten_of_uniform bs (chunks bs xs) huni
  rw [hflat, hxs] at hlen
  exact Nat.eq_of_mul_eq_mul_right hbs hlen.symm

/-- Feeding whole blocks through a length-preserving per-block function
preserves the total length. -/
theorem length_flatten_map_chunks (f : List Nat → List Nat) (bs : Nat)
    (hbs : 0 < bs) (m : Nat) (xs : List Nat) (hxs : xs.length = m * bs)
    (hf : ∀ b : List Nat, b.length = bs → (f b).length = bs) :
    ((chunks bs xs).map f).flatten.length = xs.length := by
  have huni := length_of_mem_chunks bs hbs m xs hxs
  have huni2 : ∀ c ∈ (chunks bs xs).map f, c.length = bs := by
    intro c hc
    obtain ⟨b, hb, rfl⟩ := List.mem_map.mp hc
    exact hf b (huni b hb)
  rw [length_flatten_of_uniform bs _ huni2, List.length_map,
    chunks_length_of_mul bs hbs m xs hxs, hxs]

/-- C6: for every cipher_context and every boolean argument, `set_padding`
always succeeds — it returns normally for every possible native return
value, since the source ignores the native result ("The call always
returns 1 so testing its return value is useless"), and at the behavioural
level it only flips the padding flag. -/
theorem claim_C6_set_padding_never_fails (c : cipher_context) (enabled : Bool)
    (nativeRet : Int) (s : ctx_state) :
    (c.set_padding enabled nativeRet).2 = .ok () ∧
    ctx_set_padding s enabled = { s with padding := enabled } :=
  ⟨rfl, rfl⟩

/-- C7: for every cipher_context scope, the native handle is set up exactly
once (by the constructor's `EVP_CIPHER_CTX_init`) and cleaned up exactly
once (by the destructor's `EVP_CIPHER_CTX_cleanup`), whatever member calls
happen in between and whether or not one of them raised an error — the
destructor runs on every exit path. -/
theorem claim_C7_handle_acquired_released_once (h : Nat)
    (ops : List wrapper_op) :
    (run_scope h ops).count ((native_fn.ctx_init_fn, h) : native_call) = 1 ∧
    (run_scope h ops).count ((native_fn.ctx_cleanup_fn, h) : native_call) = 1 := by
  have h1 := run_ops_count_lifecycle ⟨h⟩ ops .ctx_init_fn (Or.inl rfl) h
  have h2 := run_ops_count_lifecycle ⟨h⟩ ops .ctx_cleanup_fn (Or.inr rfl) h
  unfold run_scope cipher_context.construct cipher_context.destruct
  simp only [List.count_append, h1, h2]
  constructor <;> simp [List.count_cons, List.count_nil]

/-- C8: a cipher_context is exclusively owned and non-shareable: the event
vocabulary has no copy construction or copy assignment, so in every
well-formed program trace at most one live wrapper refers to a given native
handle, and after that wrapper is destroyed no owner references the handle
any more. -/
theorem claim_C8_exclusive_ownership (es : List owner_event) (h : Nat)
    (hwf : wf_trace es = true) :
    (owners es).count h ≤ 1 ∧
    h ∉ owners (es ++ [owner_event.ev_destroy h]) := by
  have hnd : (owners es).Nodup := owners_nodup_from es [] (by simp) hwf
  refine ⟨List.nodup_iff_count_le_one.mp hnd h, ?_⟩
  rw [owners, List.foldl_append]
  show h ∉ owners_step (List.foldl owners_step [] es) (.ev_destroy h)
  simp only [owners_step]
  intro hc
  exact absurd ((List.Nodup.mem_erase_iff hnd).mp hc).1 (by simp)

theorem claim_C8_exclusive_ownership_witness :
    (owners [owner_event.ev_create 1, owner_event.ev_use 1,
      owner_event.ev_create 2]).count 1 ≤ 1 ∧
    1 ∉ owners ([owner_event.ev_create 1, owner_event.ev_use 1,
      owner_event.ev_create 2] ++ [owner_event.ev_destroy 1]) :=
  claim_C8_exclusive_ownership
    [owner_event.ev_create 1, owner_event.ev_use 1, owner_event.ev_create 2]
    1 (by decide)

/-- C9 (counterexample): the claim says each of the seven pass-through
members — `raw` among them — performs exactly one native call; but the body
of `raw` is `return m_ctx;`, which performs none. -/
theorem claim_C9_counterexample :
    ¬ ((cipher_context.raw ⟨0⟩).1.length = 1) := by decide

/-- C9 (amended): the adapter keeps no lifecycle state — a cipher_context
is nothing but its native handle, `set_padding`, `key_length`,
`set_key_length`, `ctrl_get`, `ctrl_set` and `algorithm` each perform
exactly one native call, `raw` performs none, and none of them performs any
adapter-level precondition or state-machine check (none can produce a
contract-violation error, whatever the native library returns). -/
theorem claim_C9_no_adapter_state (c : cipher_context) (e : Bool) (r : Int)
    (rk len : Nat) (ok : Bool) (code : Nat) (t v : Int) (ra : Nat) :
    (c.set_padding e r).1.length = 1 ∧
    (c.key_length rk).1.length = 1 ∧
    (c.set_key_length len ok code).1.length = 1 ∧
    (c.ctrl_get t ok code).1.length = 1 ∧
    (c.ctrl_set t v ok code).1.length = 1 ∧
    (c.algorithm ra).1.length = 1 ∧
    (cipher_context.raw c).1.length = 0 ∧
    (c.set_padding e r).2 ≠ .error .contractViolation ∧
    (c.key_length rk).2 ≠ .error .contractViolation ∧
    (c.set_key_length len ok code).2 ≠ .error .contractViolation ∧
    (c.ctrl_get t ok code).2 ≠ .error .contractViolation ∧
    (c.ctrl_set t v ok code).2 ≠ .error .contractViolation ∧
    (∀ c' : cipher_context, c.m_ctx = c'.m_ctx → c = c') := by
  refine ⟨rfl, rfl, rfl, rfl, rfl, rfl, rfl, ?_, ?_, ?_, ?_, ?_, ?_⟩
  · simp [cipher_context.set_padding]
  · simp [cipher_context.key_length]
  · cases ok <;> simp [cipher_context.set_key_length, throw_error_if_not]
  · cases ok <;> simp [cipher_context.ctrl_get, throw_error_if_not]
  · cases ok <;> simp [cipher_context.ctrl_set, throw_error_if_not]
  · intro c' hc
    cases c
    cases c'
    simpa using hc

theorem claim_C9_no_adapter_state_witness :
    (cipher_context.raw ⟨5⟩).1.length = 0 ∧
    (⟨5⟩ : cipher_context) = ⟨5⟩ := by
  obtain ⟨-, -, -, -, -, -, h7, -, -, -, -, -, h13⟩ :=
    claim_C9_no_adapter_state ⟨5⟩ true 0 0 0 true 0 0 0 0
  exact ⟨h7, h13 ⟨5⟩ rfl⟩

/-- C10: `raw` hands out the very handle every other member operates on —
it returns the `m_ctx` member itself, performs no native call and no
precondition check, and every native call made by any member targets
exactly `raw`'s return value. -/
theorem claim_C10_raw_exposes_the_handle (c : cipher_context) (e : Bool)
    (r : Int) (rk len : Nat) (ok : Bool) (code : Nat) (t v : Int) (ra : Nat)
    (op : wrapper_op) :
    cipher_context.raw c = ([], c.m_ctx) ∧
    (∀ p ∈ (c.set_padding e r).1, p.2 = (cipher_context.raw c).2) ∧
    (∀ p ∈ (c.key_length rk).1, p.2 = (cipher_context.raw c).2) ∧
    (∀ p ∈ (c.set_key_length len ok code).1, p.2 = (cipher_context.raw c).2) ∧
    (∀ p ∈ (c.ctrl_get t ok code).1, p.2 = (cipher_context.raw c).2) ∧
    (∀ p ∈ (c.ctrl_set t v ok code).1, p.2 = (cipher_context.raw c).2) ∧
    (∀ p ∈ (c.algorithm ra).1, p.2 = (cipher_context.raw c).2) ∧
    (∀ p ∈ (run_op c op).1, p.2 = (cipher_context.raw c).2) ∧
    (∀ p ∈ c.destruct, p.2 = (cipher_context.raw c).2) := by
  refine ⟨rfl, ?_, ?_, ?_, ?_, ?_, ?_, ?_, ?_⟩
  · intro p hp
    simp only [cipher_context.set_padding, List.mem_singleton] at hp
    subst hp; rfl
  · intro p hp
    simp only [cipher_context.key_length, List.mem_singleton] at hp
    subst hp; rfl
  · intro p hp
    simp only [cipher_context.set_key_length, List.mem_singleton] at hp
    subst hp; rfl
  · intro p hp
    simp only [cipher_context.ctrl_get, List.mem_singleton] at hp
    subst hp; rfl
  · intro p hp
    simp only [cipher_context.ctrl_set, List.mem_singleton] at hp
    subst hp; rfl
  · intro p hp
    simp only [cipher_context.algorithm, List.mem_singleton] at hp
    subst hp; rfl
  · intro p hp
    cases op <;>
      simp only [run_op, cipher_context.set_padding, cipher_context.key_length,
        cipher_context.set_key_length, cipher_context.ctrl_get,
        cipher_context.ctrl_set, cipher_context.raw, cipher_context.algorithm,
        List.mem_singleton, List.not_mem_nil] at hp <;>
      first
        | exact absurd hp (by simp)
        | (subst hp; rfl)
  · intro p hp
    simp only [cipher_context.destruct, List.mem_singleton] at hp
    subst hp; rfl

theorem claim_C10_raw_exposes_the_handle_witness :
    cipher_context.raw ⟨3⟩ = ([], 3) ∧
    ∀ p ∈ (cipher_context.destruct ⟨3⟩), p.2 = (cipher_context.raw ⟨3⟩).2 := by
  obtain ⟨h1, -, -, -, -, -, -, -, h9⟩ :=
    claim_C10_raw_exposes_the_handle ⟨3⟩ true 0 0 0 true 0 0 0 0 .op_raw
  exact ⟨h1, h9⟩

/-- C2: when the native finalize call completes but reports zero bytes
written — the padding check on the withheld final block failed — with the
context in decrypt direction and padding enabled, the adapter surfaces a
`paddingError`, an error kind distinct from every `cryptoError`; it is
neither swallowed nor reported as an ordinary native failure. -/
theorem claim_C2_padding_mismatch_is_padding_error (E D : List Nat → List Nat)
    (bs : Nat) (b : List Nat) (hb : b.length = bs)
    (hbad : pkcs7_unpad bs (D b) = none) :
    ctx_finalize E D bs ⟨.streaming, false, true, b⟩ = .error .paddingError ∧
    ∀ code, (CipherError.paddingError : CipherError) ≠ .cryptoError code := by
  refine ⟨?_, fun code hc => CipherError.noConfusion hc⟩
  simp [ctx_finalize, hb, hbad]

theorem claim_C2_padding_mismatch_witness :
    ctx_finalize id id 2 ⟨.streaming, false, true, [0, 0]⟩ =
      .error .paddingError :=
  (claim_C2_padding_mismatch_is_padding_error id id 2 [0, 0] rfl rfl).1

/-- C3: whenever `finalize` succeeds, calling `finalize` again on the
resulting context without an intervening `initialize` is rejected with a
`contractViolation`, and so is any `update` from the `Finalized` state. -/
theorem claim_C3_no_use_after_finalize (E D : List Nat → List Nat) (bs : Nat)
    (s s' : ctx_state) (out : List Nat)
    (h : ctx_finalize E D bs s = .ok (s', out)) :
    ctx_finalize E D bs s' = .error .contractViolation ∧
    ∀ input, ctx_update E D bs s' input = .error .contractViolation := by
  have hst : s'.status = .finalized := by
    unfold ctx_finalize at h
    split at h
    · cases h
    · split at h
      · split at h
        · cases h; rfl
        · cases h
      · split at h
        · cases h; rfl
        · split at h
          · cases h
          · split at h
            · cases h; rfl
            · cases h
  have hcond : s'.status = .empty ∨ s'.status = .finalized := Or.inr hst
  refine ⟨?_, fun input => ?_⟩
  · unfold ctx_finalize
    rw [if_pos hcond]
  · unfold ctx_update
    rw [if_pos hcond]

theorem claim_C3_no_use_after_finalize_witness :
    ctx_finalize id id 2 ⟨.finalized, true, true, []⟩ =
      .error .contractViolation ∧
    ctx_update id id 2 ⟨.finalized, true, true, []⟩ [7] =
      .error .contractViolation := by
  obtain ⟨h1, h2⟩ := claim_C3_no_use_after_finalize id id 2
    ⟨.initialized, true, true, []⟩ ⟨.finalized, true, true, []⟩ [2, 2] rfl
  exact ⟨h1, h2 [7]⟩

/-- C4 (counterexample): the claim says `set_key_length` on a fixed-key
algorithm fails with an `InvalidOperation`/`ContractViolation`-class error;
but the source's body feeds the native verdict to `throw_error_if_not`,
the uniform native-failure path, so the rejection of length 24 on a
fixed-16-byte-key algorithm surfaces as a `cryptoError`, not as the
contract-violation kind. -/
theorem claim_C4_counterexample :
    (set_key_length_adapter ⟨0⟩ (fun _ => false) ⟨16, 16, 16, false⟩ 24 3).2 =
      .error (.cryptoError 3) ∧
    (set_key_length_adapter ⟨0⟩ (fun _ => false) ⟨16, 16, 16, false⟩ 24 3).2 ≠
      .error .contractViolation := by decide

/-- C4 (amended): `set_key_length` fails with `cryptoError` — the adapter's
uniform wrapping of a native failure, not a distinct InvalidOperation kind
— whenever the native layer rejects the requested length, in particular for
any length other than the fixed one on a fixed-key-length algorithm; on a
variable-key-length algorithm it succeeds for every length the native layer
supports, and a subsequent `initialize` with a key of exactly `len` bytes
then succeeds. -/
theorem claim_C4_set_key_length_error_kinds (c : cipher_context)
    (supported : Nat → Bool) (alg : cipher_algorithm) (len code : Nat)
    (key iv : List Nat) :
    (alg.variable_key = false → len ≠ alg.key_length →
      (set_key_length_adapter c supported alg len code).2 =
        .error (.cryptoError code)) ∧
    (alg.variable_key = true → supported len = true →
      (set_key_length_adapter c supported alg len code).2 = .ok () ∧
      (key.length = len → (alg.iv_length ≠ 0 → iv.length = alg.iv_length) →
        ctx_init alg .encrypt len key iv ctx_empty =
          .ok ⟨.initialized, true, true, []⟩)) ∧
    (alg.variable_key = true → supported len = false →
      (set_key_length_adapter c supported alg len code).2 =
        .error (.cryptoError code)) := by
  refine ⟨fun hfix hne => ?_, fun hvar hsup => ⟨?_, fun hkey hiv => ?_⟩,
    fun hvar hsup => ?_⟩
  · simp [set_key_length_adapter, native_set_key_length,
      cipher_context.set_key_length, throw_error_if_not, hfix, hne]
  · simp [set_key_length_adapter, native_set_key_length,
      cipher_context.set_key_length, throw_error_if_not, hvar, hsup]
  · have hivc : ¬ (alg.iv_length ≠ 0 ∧ iv.length ≠ alg.iv_length) :=
      fun ⟨h1, h2⟩ => h2 (hiv h1)
    simp [ctx_init, ctx_empty, hkey, hivc]
  · simp [set_key_length_adapter, native_set_key_length,
      cipher_context.set_key_length, throw_error_if_not, hvar, hsup]

theorem claim_C4_set_key_length_error_kinds_witness :
    (set_key_length_adapter ⟨0⟩ (fun l => l == 20) ⟨8, 16, 0, true⟩ 20 0).2 =
      .ok () ∧
    ctx_init ⟨8, 16, 0, true⟩ .encrypt 20 (List.replicate 20 1) [] ctx_empty =
      .ok ⟨.initialized, true, true, []⟩ := by
  obtain ⟨-, h2, -⟩ := claim_C4_set_key_length_error_kinds ⟨0⟩
    (fun l => l == 20) ⟨8, 16, 0, true⟩ 20 0 (List.replicate 20 1) []
  obtain ⟨ha, hb⟩ := h2 rfl (by decide)
  exact ⟨ha, hb (by simp) (fun hc => absurd rfl hc)⟩

/-- C5: with padding disabled, input whose total length is not a multiple
of the block size makes `finalize` fail with a `cryptoError`
(padding/length error); the adapter neither truncates nor pads — the bytes
`update` emits are exactly the whole blocks of the input. -/
theorem claim_C5_no_padding_requires_block_multiple (E D : List Nat → List Nat)
    (bs : Nat) (enc : Bool) (data : List Nat) (hbs : 0 < bs)
    (hnm : data.length % bs ≠ 0)
    (hf : ∀ b : List Nat, b.length = bs → ((if enc then E else D) b).length = bs) :
    ctx_update E D bs ⟨.initialized, enc, false, []⟩ data =
      .ok (⟨.streaming, enc, false,
          data.drop (data.length - data.length % bs)⟩,
        ((chunks bs (data.take (data.length - data.length % bs))).map
          (if enc then E else D)).flatten) ∧
    ctx_finalize E D bs
      ⟨.streaming, enc, false, data.drop (data.length - data.length % bs)⟩ =
      .error (.cryptoError 0) ∧
    ((chunks bs (data.take (data.length - data.length % bs))).map
      (if enc then E else D)).flatten.length =
      data.length - data.length % bs := by
  have hmodle : data.length % bs ≤ data.length := Nat.mod_le _ _
  refine ⟨?_, ?_, ?_⟩
  · simp [ctx_update, ctx_keep]
  · have hbne : data.drop (data.length - data.length % bs) ≠ [] := by
      intro hc
      have := congrArg List.length hc
      simp only [List.length_drop, List.length_nil] at this
      omega
    simp [ctx_finalize, hbne]
  · have htlen : (data.take (data.length - data.length % bs)).length =
        (data.length / bs) * bs := by
      simp only [List.length_take]
      have := Nat.div_add_mod data.length bs
      have hcomm : (data.length / bs) * bs = bs * (data.length / bs) :=
        Nat.mul_comm _ _
      omega
    rw [length_flatten_map_chunks (if enc then E else D) bs hbs
      (data.length / bs) _ htlen hf, htlen]
    have := Nat.div_add_mod data.length bs
    have hcomm : (data.length / bs) * bs = bs * (data.length / bs) :=
      Nat.mul_comm _ _
    omega

theorem claim_C5_no_padding_witness :
    ctx_update id id 2 ⟨.initialized, true, false, []⟩ [1, 2, 3] =
      .ok (⟨.streaming, true, false, [3]⟩, [1, 2]) ∧
    ctx_finalize id id 2 ⟨.streaming, true, false, [3]⟩ =
      .error (.cryptoError 0) := by
  obtain ⟨h1, h2, -⟩ := claim_C5_no_padding_requires_block_multiple id id 2
    true [1, 2, 3] (by decide) (by decide) (fun b hb => by simpa using hb)
  exact ⟨h1, h2⟩

theorem length_drop_mod (p : List Nat) (bs : Nat) :
    (p.drop (p.length - p.length % bs)).length = p.length % bs := by
  have : p.length % bs ≤ p.length := Nat.mod_le _ _
  simp only [List.length_drop]
  omega

theorem length_take_mod (p : List Nat) (bs : Nat) :
    (p.take (p.length - p.length % bs)).length = (p.length / bs) * bs := by
  simp only [List.length_take]
  have h1 := Nat.div_add_mod p.length bs
  have h2 : (p.length / bs) * bs = bs * (p.length / bs) := Nat.mul_comm _ _
  omega

/-- Padding the whole input is padding the below-block remainder after the
whole blocks. -/
theorem pkcs7_pad_split (bs : Nat) (p : List Nat) :
    pkcs7_pad bs p = p.take (p.length - p.length % bs) ++
      pkcs7_pad bs (p.drop (p.length - p.length % bs)) := by
  unfold pkcs7_pad
  have hd := length_drop_mod p bs
  by_cases hbs : bs = 0
  · subst hbs
    simp
  have hlt : p.length % bs < bs := Nat.mod_lt _ (by omega)
  have hmod : (p.drop (p.length - p.length % bs)).length % bs = p.length % bs := by
    rw [hd, Nat.mod_eq_of_lt hlt]
  rw [hmod, ← List.append_assoc, List.take_append_drop]

/-- The padded below-block remainder is exactly one block. -/
theorem length_pkcs7_pad_drop (bs : Nat) (hbs : 0 < bs) (p : List Nat) :
    (pkcs7_pad bs (p.drop (p.length - p.length % bs))).length = bs := by
  rw [length_pkcs7_pad bs hbs, length_drop_mod]
  have hlt : p.length % bs < bs := Nat.mod_lt _ hbs
  rw [Nat.div_eq_of_lt hlt]
  omega

theorem ctx_init_enc_ok (alg : cipher_algorithm) (keyLen : Nat)
    (key iv : List Nat) (hkey : key.length = keyLen)
    (hiv : alg.iv_length ≠ 0 → iv.length = alg.iv_length) :
    ctx_init alg .encrypt keyLen key iv ctx_empty =
      .ok ⟨.initialized, true, true, []⟩ := by
  have hivc : ¬(alg.iv_length ≠ 0 ∧ iv.length ≠ alg.iv_length) :=
    fun ⟨a, b⟩ => b (hiv a)
  simp [ctx_init, ctx_empty, hkey, hivc]

theorem ctx_init_dec_ok (alg : cipher_algorithm) (keyLen : Nat)
    (key iv : List Nat) (hkey : key.length = keyLen)
    (hiv : alg.iv_length ≠ 0 → iv.length = alg.iv_length) :
    ctx_init alg .decrypt keyLen key iv ctx_empty =
      .ok ⟨.initialized, false, true, []⟩ := by
  have hivc : ¬(alg.iv_length ≠ 0 ∧ iv.length ≠ alg.iv_length) :=
    fun ⟨a, b⟩ => b (hiv a)
  simp [ctx_init, ctx_empty, hkey, hivc]

theorem ctx_update_enc (E D : List Nat → List Nat) (bs : Nat) (pad : Bool)
    (p : List Nat) :
    ctx_update E D bs ⟨.initialized, true, pad, []⟩ p =
      .ok (⟨.streaming, true, pad, p.drop (p.length - p.length % bs)⟩,
        ((chunks bs (p.take (p.length - p.length % bs))).map E).flatten) := by
  simp [ctx_update, ctx_keep]

theorem ctx_update_dec_pad (E D : List Nat → List Nat) (bs : Nat)
    (ct : List Nat) (hmod : ct.length % bs = 0) (hne : ct.length ≠ 0) :
    ctx_update E D bs ⟨.initialized, false, true, []⟩ ct =
      .ok (⟨.streaming, false, true, ct.drop (ct.length - bs)⟩,
        ((chunks bs (ct.take (ct.length - bs))).map D).flatten) := by
  have hkeep : ctx_keep false true bs ct.length = bs := by
    simp [ctx_keep, hmod, hne]
  simp [ctx_update, hkeep]

theorem ctx_finalize_enc_pad (E D : List Nat → List Nat) (bs : Nat)
    (buf : List Nat) :
    ctx_finalize E D bs ⟨.streaming, true, true, buf⟩ =
      .ok (⟨.finalized, true, true, []⟩, E (pkcs7_pad bs buf)) := by
  simp [ctx_finalize]

theorem ctx_finalize_dec_pad (E D : List Nat → List Nat) (bs : Nat)
    (buf plain : List Nat) (hlen : buf.length = bs)
    (hunpad : pkcs7_unpad bs (D buf) = some plain) :
    ctx_finalize E D bs ⟨.streaming, false, true, buf⟩ =
      .ok (⟨.finalized, false, true, []⟩, plain) := by
  simp [ctx_finalize, hlen, hunpad]

/-- One-shot encryption: the ciphertext is the per-block encryption of the
PKCS-padded plaintext. -/
theorem oneshot_encrypt_eq (E D : List Nat → List Nat)
    (alg : cipher_algorithm) (key iv p : List Nat)
    (hbs : 0 < alg.block_size) (hkey : key.length = alg.key_length)
    (hiv : alg.iv_length ≠ 0 → iv.length = alg.iv_length) :
    ctx_oneshot E D alg .encrypt key iv p =
      .ok (((chunks alg.block_size
        (pkcs7_pad alg.block_size p)).map E).flatten) := by
  have hinit := ctx_init_enc_ok alg alg.key_length key iv hkey hiv
  have hupd := ctx_update_enc E D alg.block_size true p
  have hfin := ctx_finalize_enc_pad E D alg.block_size
    (p.drop (p.length - p.length % alg.block_size))
  simp only [ctx_oneshot, hinit, hupd, hfin]
  congr 1
  rw [pkcs7_pad_split alg.block_size p,
    chunks_append alg.block_size hbs (p.length / alg.block_size) _ _
      (length_take_mod p alg.block_size),
    chunks_of_length_eq alg.block_size hbs _
      (length_pkcs7_pad_drop alg.block_size hbs p)]
  simp

/-- One-shot decryption of a block-encrypted padded stream recovers the
plaintext, provided the per-block primitives are mutually inverse and
length-preserving on blocks. -/
theorem oneshot_decrypt_eq (E D : List Nat → List Nat)
    (alg : cipher_algorithm) (key iv p : List Nat)
    (hbs : 0 < alg.block_size)
    (hE : ∀ b : List Nat, b.length = alg.block_size →
      (E b).length = alg.block_size)
    (hDE : ∀ b : List Nat, b.length = alg.block_size → D (E b) = b)
    (hkey : key.length = alg.key_length)
    (hiv : alg.iv_length ≠ 0 → iv.length = alg.iv_length) :
    ctx_oneshot E D alg .decrypt key iv
      (((chunks alg.block_size (pkcs7_pad alg.block_size p)).map E).flatten) =
      .ok p := by
  set bs := alg.block_size with hbsdef
  set n := p.length with hndef
  set A := p.take (n - n % bs) with hAdef
  set B := pkcs7_pad bs (p.drop (n - n % bs)) with hBdef
  set CP := chunks bs (pkcs7_pad bs p) with hCPdef
  set L := CP.map E with hLdef
  have hAlen : A.length = (n / bs) * bs := length_take_mod p bs
  have hBlen : B.length = bs := length_pkcs7_pad_drop bs hbs p
  have hPlen : (pkcs7_pad bs p).length = (n / bs + 1) * bs :=
    length_pkcs7_pad bs hbs p
  have hCPuni : ∀ c ∈ CP, c.length = bs :=
    length_of_mem_chunks bs hbs (n / bs + 1) _ hPlen
  have hLuni : ∀ c ∈ L, c.length = bs := by
    intro c hc
    obtain ⟨b, hb, rfl⟩ := List.mem_map.mp hc
    exact hE b (hCPuni b hb)
  have hCPlen : CP.length = n / bs + 1 :=
    chunks_length_of_mul bs hbs (n / bs + 1) _ hPlen
  have hLlen : L.length = n / bs + 1 := by
    rw [hLdef, List.length_map, hCPlen]
  have hctlen : L.flatten.length = (n / bs + 1) * bs := by
    rw [length_flatten_of_uniform bs L hLuni, hLlen]
  have hctmod : L.flatten.length % bs = 0 := by
    rw [hctlen]
    exact Nat.mul_mod_left _ _
  have hctne : L.flatten.length ≠ 0 := by
    rw [hctlen]
    exact Nat.pos_iff_ne_zero.mp (Nat.mul_pos (Nat.succ_pos (n / bs)) hbs)
  have hctsub : L.flatten.length - bs = (n / bs) * bs := by
    rw [hctlen]
    have : (n / bs + 1) * bs = (n / bs) * bs + bs := by ring
    omega
  -- the first n/bs ciphertext blocks decrypt to the whole plaintext blocks
  have htake : L.flatten.take (L.flatten.length - bs) = (L.take (n / bs)).flatten := by
    rw [hctsub]
    exact take_flatten_of_uniform bs (n / bs) L hLuni
  have htakeuni : ∀ c ∈ L.take (n / bs), c.length = bs :=
    fun c hc => hLuni c (List.take_subset _ _ hc)
  have ho1 : ((chunks bs (L.flatten.take (L.flatten.length - bs))).map D).flatten = A := by
    rw [htake, chunks_flatten_of_uniform bs hbs _ htakeuni, hLdef,
      ← List.map_take, List.map_map]
    have hid : (CP.take (n / bs)).map (D ∘ E) = CP.take (n / bs) := by
      have := List.map_congr_left (l := CP.take (n / bs)) (f := D ∘ E) (g := id)
        (fun c hc => hDE c (hCPuni c (List.take_subset _ _ hc)))
      rw [this, List.map_id]
    rw [hid]
    have h1 : (CP.take (n / bs)).flatten = CP.flatten.take ((n / bs) * bs) :=
      (take_flatten_of_uniform bs (n / bs) CP hCPuni).symm
    rw [h1, hCPdef, flatten_chunks bs hbs, pkcs7_pad_split bs p]
    rw [List.take_append_of_le_length (by rw [hAlen])]
    rw [hAdef]
    have h2 : n - n % bs = (n / bs) * bs := by
      have h3 := Nat.div_add_mod n bs
      have h4 : (n / bs) * bs = bs * (n / bs) := Nat.mul_comm _ _
      omega
    rw [h2, List.take_take]
    simp
  -- the withheld final ciphertext block is the encrypted padding block
  have hCPsplit : CP = chunks bs A ++ [B] := by
    rw [hCPdef, pkcs7_pad_split bs p, ← hAdef, ← hBdef,
      chunks_append bs hbs (n / bs) _ _ hAlen,
      chunks_of_length_eq bs hbs B hBlen]
  have hchAlen : (chunks bs A).length = n / bs :=
    chunks_length_of_mul bs hbs (n / bs) A hAlen
  have hbuf : L.flatten.drop (L.flatten.length - bs) = E B := by
    rw [hctsub, drop_flatten_of_uniform bs (n / bs) L hLuni, hLdef, hCPsplit,
      List.map_append]
    have hlen2 : ((chunks bs A).map E).length = n / bs := by
      rw [List.length_map, hchAlen]
    rw [← hlen2, List.drop_left]
    simp
  have hupd := ctx_update_dec_pad E D bs L.flatten hctmod hctne
  have hfin : ctx_finalize E D bs
      ⟨.streaming, false, true, L.flatten.drop (L.flatten.length - bs)⟩ =
      .ok (⟨.finalized, false, true, []⟩, p.drop (n - n % bs)) := by
    apply ctx_finalize_dec_pad
    · rw [hbuf]
      exact hE B hBlen
    · rw [hbuf, hDE B hBlen, hBdef]
      exact pkcs7_unpad_pad bs hbs _ (by
        rw [length_drop_mod]
        exact Nat.mod_lt _ hbs)
  have hinit := ctx_init_dec_ok alg alg.key_length key iv hkey hiv
  simp only [ctx_oneshot, hinit, ← hbsdef, hupd, hfin, ho1]
  rw [hAdef, List.take_append_drop]

/-- C1: for every cipher algorithm (any block-mapping pair `E`/`D` the
native library supplies that is mutually inverse and length-preserving on
blocks) and every valid key/IV pair, encrypting a plaintext through
`initialize(encrypt)`/`update`/`finalize` and feeding the ciphertext
through `initialize(decrypt)`/`update`/`finalize` with the same key and IV
reproduces the plaintext exactly, for plaintext lengths `0`, `1`,
`block_size - 1`, `block_size`, `block_size + 1` and `10 * block_size`. -/
theorem claim_C1_encrypt_decrypt_roundtrip (E D : List Nat → List Nat)
    (alg : cipher_algorithm) (key iv p : List Nat)
    (hbs : 0 < alg.block_size)
    (hE : ∀ b : List Nat, b.length = alg.block_size →
      (E b).length = alg.block_size)
    (hDE : ∀ b : List Nat, b.length = alg.block_size → D (E b) = b)
    (hkey : key.length = alg.key_length)
    (hiv : alg.iv_length ≠ 0 → iv.length = alg.iv_length)
    (hplen : p.length ∈ [0, 1, alg.block_size - 1, alg.block_size,
      alg.block_size + 1, 10 * alg.block_size]) :
    ∃ ct, ctx_oneshot E D alg .encrypt key iv p = .ok ct ∧
      ctx_oneshot E D alg .decrypt key iv ct = .ok p :=
  ⟨((chunks alg.block_size (pkcs7_pad alg.block_size p)).map E).flatten,
    oneshot_encrypt_eq E D alg key iv p hbs hkey hiv,
    oneshot_decrypt_eq E D alg key iv p hbs hE hDE hkey hiv⟩

theorem claim_C1_encrypt_decrypt_roundtrip_witness :
    ctx_oneshot id id ⟨2, 4, 2, false⟩ .encrypt [9, 9, 9, 9] [7, 7]
      [65, 65, 65] = .ok [65, 65, 65, 1] ∧
    ctx_oneshot id id ⟨2, 4, 2, false⟩ .decrypt [9, 9, 9, 9] [7, 7]
      [65, 65, 65, 1] = .ok [65, 65, 65] := by
  obtain ⟨ct, h1, h2⟩ := claim_C1_encrypt_decrypt_roundtrip id id
    ⟨2, 4, 2, false⟩ [9, 9, 9, 9] [7, 7] [65, 65, 65] (by decide)
    (fun b hb => hb) (fun b _ => rfl) (by decide) (fun _ => rfl) (by decide)
  have hct : ct = [65, 65, 65, 1] := by
    have hev : ctx_oneshot id id ⟨2, 4, 2, false⟩ .encrypt [9, 9, 9, 9]
        [7, 7] [65, 65, 65] = .ok [65, 65, 65, 1] := by decide
    rw [hev] at h1
    injection h1 with heq
    exact heq.symm
  subst hct
  exact ⟨h1, h2⟩

end Cryptoplus
